import Mathlib

/-!
Verification development for the AIR03 inventory/procurement application.

The definitions below are a shallow embedding of the reconciliation and
allocation logic of the repository: the stock snapshot resolver and the
sequential allocation engine of the Indent module, the stock tie-break
helper and the live stock cache of the Purchase module, the field backfill
and vendor-batch-number logic of the VSIR and Vendor-Department modules.
JavaScript numbers are modelled as Int, JavaScript strings as String, and
absent object fields as Option values; the field-name alias probing of the
source (several spellings per conceptual field) is collapsed to one
canonical field per concept, as the specification's scope section directs.
-/

namespace AIR03

/-! ## JavaScript string primitives

`jsNorm` models `String(v).trim().toUpperCase()`, `jsAlpha` additionally
strips everything but A-Z and 0-9 (the `.replace(/[^A-Z0-9]/g, '')` form),
`strIncludes` models `String.prototype.includes`, and `jsOr` models the
JavaScript `||` operator on strings (falsy iff empty). -/

def trimChars (cs : List Char) : List Char :=
  ((cs.dropWhile Char.isWhitespace).reverse.dropWhile Char.isWhitespace).reverse

def jsNorm (s : String) : String :=
  String.mk ((trimChars s.data).map Char.toUpper)

def isAlphaNumUpper (c : Char) : Bool :=
  c.isUpper || c.isDigit

def jsAlpha (s : String) : String :=
  String.mk (((jsNorm s).data).filter isAlphaNumUpper)

def charsStartWith : List Char → List Char → Bool
  | _, [] => true
  | [], _ :: _ => false
  | b :: bs, s :: ss => b == s && charsStartWith bs ss

def charsContain : List Char → List Char → Bool
  | [], ss => ss.isEmpty
  | b :: bs, ss => charsStartWith (b :: bs) ss || charsContain bs ss

def strIncludes (big small : String) : Bool :=
  charsContain big.data small.data

def jsOr (a b : String) : String :=
  if a = "" then b else a

/-! ## Stock snapshot resolver (`getStock`, Indent module)

A stock record is probed through a list of code/name-like candidate fields
(`itemCode`, `ItemCode`, `code`, ..., `sku`) and, for the contains
fallback, through the string forms of all of its values
(`Object.values(s)`); absent fields read as the empty string.  The
closing-stock override is the first numeric value among the closing-stock
key aliases; when absent the stock is computed as
`stockQty + purStoreOkQty + vendorOkQty - inHouseIssuedQty`. -/

structure StockRecord where
  candidates : List String
  values : List String
  closing : Option Int
  stockQty : Int
  purStoreOkQty : Int
  vendorOkQty : Int
  inHouseIssuedQty : Int
deriving Repr, DecidableEq

/-- One record of the matching loop of `getStock`: exact normalized code
match, then alpha/exact match across the candidate fields, then substring
containment in either direction across all values of the record. -/
def recordMatches (itemCode : String) (s : StockRecord) : Bool :=
  let codeNorm := jsNorm itemCode
  let targetAlpha := jsAlpha itemCode
  (codeNorm ≠ "" && s.candidates.any (fun c => jsNorm c == codeNorm))
  || s.candidates.any (fun c => jsAlpha c == targetAlpha || jsNorm c == codeNorm)
  || s.values.any (fun v =>
      strIncludes (jsAlpha v) targetAlpha || strIncludes targetAlpha (jsAlpha v)
      || strIncludes (jsNorm v) codeNorm || strIncludes codeNorm (jsNorm v))

/-- Closing stock of a matched record: the explicit closing-stock field
when present, else the Stock-Module computation. -/
def closingOf (s : StockRecord) : Int :=
  s.closing.getD (s.stockQty + s.purStoreOkQty + s.vendorOkQty - s.inHouseIssuedQty)

/-- `getStock` of the Indent module: empty item codes and unmatched
lookups resolve to 0. -/
def getStock (stockRecords : List StockRecord) (itemCode : String) : Int :=
  if itemCode = "" then 0
  else
    match stockRecords.find? (recordMatches itemCode) with
    | none => 0
    | some m => closingOf m

/-! ## Purchase orders and PO quantity (`getPOQuantity`, Indent module) -/

structure POItem where
  itemCode : String
  qty : Int
deriving Repr, DecidableEq

structure PurchaseOrder where
  items : List POItem
deriving Repr, DecidableEq

/-- Sum of quantities across all purchase-order lines whose item code
equals the queried code exactly. -/
def getPOQuantity (purchaseOrders : List PurchaseOrder) (itemCode : String) : Int :=
  purchaseOrders.foldl
    (fun acc po =>
      po.items.foldl (fun a it => if it.itemCode == itemCode then a + it.qty else a) acc)
    0

/-! ## Sequential allocation engine (Indent module)

Indents are walked in creation order; each line of an earlier indent that
mentions the queried item consumes `min(max(0, stock - allocatedSoFar),
qty)` from the pool.  `lineStep` and `indentStep` name the two loop bodies
of `getCumulativeAllocatedQtyUpTo`. -/

structure IndentItem where
  model : String
  itemCode : String
  qty : Int
  indentClosed : Bool
deriving Repr, DecidableEq

structure Indent where
  indentNo : String
  date : String
  indentBy : String
  oaNo : String
  items : List IndentItem
deriving Repr, DecidableEq

/-- Inner loop body of the cumulative allocation walk, with the resolved
total stock `S` abstracted. -/
def lineStep (S : Int) (code : String) (tot : Int) (it : IndentItem) : Int :=
  if it.itemCode == code then tot + min (max 0 (S - tot)) it.qty else tot

/-- One indent of the cumulative allocation walk. -/
def indentStep (S : Int) (code : String) (tot : Int) (ind : Indent) : Int :=
  ind.items.foldl (lineStep S code) tot

/-- Cumulative allocation through the first `upTo` indents, with the
resolved total stock abstracted as `S`. -/
def cumUpTo (S : Int) (code : String) (indents : List Indent) (upTo : Nat) : Int :=
  (indents.take upTo).foldl (indentStep S code) 0

/-- `getCumulativeAllocatedQtyUpTo` of the Indent module. -/
def getCumulativeAllocatedQtyUpTo (stocks : List StockRecord) (indents : List Indent)
    (itemCode : String) (upTo : Nat) : Int :=
  cumUpTo (getStock stocks itemCode) itemCode indents upTo

/-- `getAllocatedAvailableForIndent` of the Indent module. -/
def getAllocatedAvailableForIndent (stocks : List StockRecord) (indents : List Indent)
    (itemCode : String) (indentIndex : Nat) (itemQty : Int) : Int :=
  let totalStock := getStock stocks itemCode
  let previousAllocatedQty := getCumulativeAllocatedQtyUpTo stocks indents itemCode indentIndex
  let availableBefore := totalStock - previousAllocatedQty
  min (max 0 availableBefore) itemQty

structure IndentAnalysis where
  totalStock : Int
  previousIndentsQty : Int
  poQuantity : Int
  availableForThisIndent : Int
  allocatedAvailable : Int
  isClosed : Bool
deriving Repr, DecidableEq

/-- `getIndentAnalysis` of the Indent module (the debug `calculation`
string of the source object is omitted). -/
def getIndentAnalysis (stocks : List StockRecord) (purchaseOrders : List PurchaseOrder)
    (indents : List Indent) (itemCode : String) (indentIndex : Nat) (itemQty : Int) :
    IndentAnalysis :=
  let totalStock := getStock stocks itemCode
  let previousAllocatedQty := getCumulativeAllocatedQtyUpTo stocks indents itemCode indentIndex
  let poQuantity := getPOQuantity purchaseOrders itemCode
  let availableBefore := totalStock - previousAllocatedQty
  { totalStock := totalStock
    previousIndentsQty := previousAllocatedQty
    poQuantity := poQuantity
    availableForThisIndent := (totalStock + poQuantity) - previousAllocatedQty - itemQty
    allocatedAvailable := min (max 0 availableBefore) itemQty
    isClosed := decide (availableBefore ≥ itemQty) }

/-- Per-line loop body of `getAllocatedStock`. -/
def allocLineStep (stocks : List StockRecord) (indents : List Indent) (code : String)
    (i : Nat) (tot : Int) (it : IndentItem) : Int :=
  if it.itemCode == code then
    tot + getAllocatedAvailableForIndent stocks indents code i it.qty
  else tot

/-- `getAllocatedStock` of the Indent module: the sum of
`getAllocatedAvailableForIndent` over every line of every indent that
mentions the item. -/
def getAllocatedStock (stocks : List StockRecord) (indents : List Indent)
    (code : String) : Int :=
  indents.enum.foldl
    (fun tot p => p.2.items.foldl (allocLineStep stocks indents code p.1) tot) 0

/-- `getRemainingStock` of the Indent module: stock plus PO quantity,
minus the allocation of every saved indent line, minus sequential
allocations of the draft (not-yet-saved) indent's lines. -/
def getRemainingStock (stocks : List StockRecord) (purchaseOrders : List PurchaseOrder)
    (indents : List Indent) (draftItems : List IndentItem) (code : String) : Int :=
  let totalStock := getStock stocks code
  let poQty := getPOQuantity purchaseOrders code
  let available0 := totalStock + poQty
  let afterSaved :=
    indents.enum.foldl
      (fun avail p =>
        p.2.items.foldl
          (fun avail it =>
            if it.itemCode == code then
              avail - getAllocatedAvailableForIndent stocks indents code p.1 it.qty
            else avail)
          avail)
      available0
  draftItems.foldl
    (fun avail it =>
      if it.itemCode == code then avail - min (max 0 avail) it.qty else avail)
    afterSaved

/-- Total quantity the draft indent lines consume from a pool of size
`pool` under the sequential allocation rule (specification §4.2 extended
to draft lines appended at the end). -/
def draftConsumed (code : String) : Int → List IndentItem → Int
  | _, [] => 0
  | pool, it :: rest =>
    if it.itemCode == code then
      let a := min (max 0 pool) it.qty
      a + draftConsumed code (pool - a) rest
    else draftConsumed code pool rest

/-! ## Stock tie-break (`chooseBestStock`, shared helper)

A candidate's computed stock is its explicit closing-stock value when one
of the closing-stock aliases holds a number, else
`stockQty + purchaseActualQtyInStore` (absent numeric fields read as 0 via
the `|| 0` chains of `getNumericField`).  `s.id || 0` is modelled by
`idVal`. -/

structure StockCandidate where
  closing : Option Int
  stockQty : Option Int
  pQty : Option Int
  id : Option Int
deriving Repr, DecidableEq

def computedStock (s : StockCandidate) : Int :=
  match s.closing with
  | some c => c
  | none => s.stockQty.getD 0 + s.pQty.getD 0

def idVal (s : StockCandidate) : Int :=
  s.id.getD 0

/-- One step of the selection loop of `chooseBestStock`:
higher computed value wins, a tie is broken by the larger id. -/
def chooseStep (acc : StockCandidate × Int) (s : StockCandidate) : StockCandidate × Int :=
  let computed := computedStock s
  if computed > acc.2 then (s, computed)
  else if computed = acc.2 then
    (if idVal s > idVal acc.1 then (s, acc.2) else acc)
  else acc

/-- `chooseBestStock`: `null` on an empty candidate array, else the
fold of the selection loop (the `best === null` branch takes the first
candidate). -/
def chooseBestStock : List StockCandidate → Option StockCandidate
  | [] => none
  | c :: cs => some (cs.foldl chooseStep (c, computedStock c)).1

/-! ## Cross-stage field backfill (VSIR module and Vendor-Department module)

`fillRecord` is one record of the fill-missing-OA/Batch effect of the
VSIR module: when the OA number or the purchase batch number is blank and
a PO number is present, the PSIR records, the vendor-department orders and
the vendor issues are consulted in that order, and `field || source.field`
keeps any value that is already non-empty. -/

structure PsirRec where
  poNo : String
  oaNo : String
  batchNo : String
deriving Repr, DecidableEq

structure DeptRec where
  materialPurchasePoNo : String
  oaNo : String
  batchNo : String
deriving Repr, DecidableEq

structure IssueRec where
  materialPurchasePoNo : String
  oaNo : String
  batchNo : String
deriving Repr, DecidableEq

structure VSIRRecord where
  poNo : String
  oaNo : String
  purchaseBatchNo : String
deriving Repr, DecidableEq

/-- The PSIR consultation of the fill-missing effect, guarded by a blank
field. -/
def psirStep (psirs : List PsirRec) (poNo : String) (cur : String × String) :
    String × String :=
  if cur.1 = "" ∨ cur.2 = "" then
    match psirs.find? (fun p => p.poNo == poNo) with
    | some m => (jsOr cur.1 m.oaNo, jsOr cur.2 m.batchNo)
    | none => cur
  else cur

/-- The vendor-department consultation, guarded by a blank field and a
non-empty collection. -/
def deptStep (depts : List DeptRec) (poNo : String) (cur : String × String) :
    String × String :=
  if (cur.1 = "" ∨ cur.2 = "") ∧ depts ≠ [] then
    match depts.find? (fun v => v.materialPurchasePoNo == poNo) with
    | some m => (jsOr cur.1 m.oaNo, jsOr cur.2 m.batchNo)
    | none => cur
  else cur

/-- The vendor-issue consultation, guarded by a blank field and a
non-empty collection. -/
def issueStep (issues : List IssueRec) (poNo : String) (cur : String × String) :
    String × String :=
  if (cur.1 = "" ∨ cur.2 = "") ∧ issues ≠ [] then
    match issues.find? (fun vi => vi.materialPurchasePoNo == poNo) with
    | some m => (jsOr cur.1 m.oaNo, jsOr cur.2 m.batchNo)
    | none => cur
  else cur

/-- The three-source waterfall of the fill-missing effect, acting on the
pair (oaNo, batchNo). -/
def waterfall (psirs : List PsirRec) (depts : List DeptRec) (issues : List IssueRec)
    (poNo : String) (oa b : String) : String × String :=
  issueStep issues poNo (deptStep depts poNo (psirStep psirs poNo (oa, b)))

/-- One record of the fill-missing-OA/Batch effect of the VSIR module. -/
def fillRecord (psirs : List PsirRec) (depts : List DeptRec) (issues : List IssueRec)
    (r : VSIRRecord) : VSIRRecord :=
  if (r.oaNo = "" ∨ r.purchaseBatchNo = "") ∧ r.poNo ≠ "" then
    let s := waterfall psirs depts issues r.poNo r.oaNo r.purchaseBatchNo
    if s.1 ≠ r.oaNo ∨ s.2 ≠ r.purchaseBatchNo then
      { r with oaNo := s.1, purchaseBatchNo := s.2 }
    else r
  else r

/-- The whole fill-missing pass (the source's early return on an empty
record list coincides with mapping over the empty list). -/
def fillMissing (psirs : List PsirRec) (depts : List DeptRec) (issues : List IssueRec)
    (records : List VSIRRecord) : List VSIRRecord :=
  records.map (fillRecord psirs depts issues)

/-! `syncEmptyVendorDeptQty` of the Vendor-Department module: a
non-destructive quantity sync that fills only zero quantities.  The
impure quantity source `getPurchaseQty` (it consults purchase orders,
purchase data and localStorage) is abstracted as the function `pq` from
(PO number, item code) to the resolved quantity. -/

structure DeptItem where
  itemCode : String
  qty : Int
deriving Repr, DecidableEq

structure DeptOrder where
  materialPurchasePoNo : String
  items : List DeptItem
deriving Repr, DecidableEq

/-- One item of `syncEmptyVendorDeptQty`: fill `qty` from the purchase
quantity `p` only when the stored quantity is zero and `p` is positive. -/
def syncItem (p : Int) (it : DeptItem) : DeptItem :=
  if it.qty = 0 ∧ 0 < p then { it with qty := p } else it

/-- `syncEmptyVendorDeptQty`. -/
def syncEmptyVendorDeptQty (pq : String → String → Int) (orders : List DeptOrder) :
    List DeptOrder :=
  orders.map fun o =>
    { o with items := o.items.map fun it => syncItem (pq o.materialPurchasePoNo it.itemCode) it }

/-! ## Vendor batch numbers (VSIR module, Vendor-Department module)

The sequence number of a batch number is extracted with the unanchored
regular expression formed from the two-digit year: the first position at
which the literal `yy + "/V"` occurs followed by at least one digit, the
digits taken greedily. -/

def natOfDigits (ds : List Char) : Nat :=
  ds.foldl (fun n c => n * 10 + (c.toNat - 48)) 0

/-- First match of the pattern `pat` followed by one or more digits;
returns the numeric value of the digit run. -/
def findBatchNum (pat : List Char) : List Char → Option Nat
  | [] => none
  | c :: cs =>
    if charsStartWith (c :: cs) pat then
      let ds := ((c :: cs).drop pat.length).takeWhile Char.isDigit
      if ds.isEmpty then findBatchNum pat cs else some (natOfDigits ds)
    else findBatchNum pat cs

/-- `v.match(new RegExp(yy + "/V(\\d+)"))`, returning the parsed capture. -/
def parseSeq (yy v : String) : Option Nat :=
  findBatchNum (yy ++ "/V").data v.data

/-- The template literal used for generated batch numbers. -/
def mkBatch (yy : String) (n : Nat) : String :=
  yy ++ "/V" ++ toString n

/-- `generateVendorBatchNo` of the VSIR module: scan the VSIR records and
the vendor-department orders for current-year batch numbers and return
the year prefix with the successor of the maximal parsed sequence
number (0 when none parse). -/
def generateVendorBatchNo (yy : String) (vsirNos deptNos : List String) : String :=
  let m1 := vsirNos.foldl
    (fun mx v => match parseSeq yy v with | some n => max mx n | none => mx) 0
  let m2 := deptNos.foldl
    (fun mx v => match parseSeq yy v with | some n => max mx n | none => mx) m1
  mkBatch yy (m2 + 1)

/-- The collision-handling loop of `handleAddOrder` in the
Vendor-Department module, with the remaining retry budget as fuel: while
the candidate collides with an existing vendor batch number and attempts
remain, re-parse it against the current-year pattern and bump the
sequence number; a candidate that does not parse breaks the loop.  The
loop has no failure channel: its result is saved unconditionally. -/
def resolveLoop (yy : String) (existing : List String) : Nat → String → String
  | 0, v => v
  | fuel + 1, v =>
    if v ∈ existing then
      match parseSeq yy v with
      | some n => resolveLoop yy existing fuel (mkBatch yy (n + 1))
      | none => v
    else v

/-- The vendor batch number actually saved by `handleAddOrder`
(`counter < 100` allows at most 100 retries). -/
def resolveVendorBatchNo (yy : String) (existing : List String) (start : String) : String :=
  resolveLoop yy existing 100 start

/-- The total retry step: bump the sequence number when the candidate
parses, otherwise leave it unchanged. -/
def stepBatch (yy : String) (v : String) : String :=
  match parseSeq yy v with
  | some n => mkBatch yy (n + 1)
  | none => v

/-! ## Live stock cache (Purchase module)

`buildLiveStockMap` models the `liveStockMap` memo: every open indent
item, then every closed one, is walked; each key variant
(`indentNo|itemCode`, `indentNo|Code`, or the `indentNo|` fallback when
both codes are blank) is inserted only when not already present.  The
source computes the status by object membership in `openIndentItems`;
walking the concatenation with a status tag is equivalent, because items
are drawn from the two arrays in that order and a duplicated key is never
re-inserted. -/

def normalizeField (s : String) : String :=
  jsNorm s

def makeKey (indentNo itemCode : String) : String :=
  normalizeField indentNo ++ "|" ++ normalizeField itemCode

structure LiveInfo where
  display : Int
  isShort : Bool
  status : String
deriving Repr, DecidableEq

/-- An open/closed indent item document as published by the Indent
module (quantity-like fields that may be absent are Options; the `Code`
alias field reads as the empty string when absent). -/
structure PubItem where
  indentNo : String
  itemCode : String
  codeField : String
  availableForThisIndent : Option Int
  allocatedAvailable : Option Int
  qty1 : Option Int
  available : Option Int
  qty : Option Int
deriving Repr, DecidableEq

structure IndentLine where
  itemCode : String
  codeField : String
  itemField : String
  qty : Int
deriving Repr, DecidableEq

structure IndentDoc where
  indentNo : String
  items : List IndentLine
deriving Repr, DecidableEq

structure PMStockRecord where
  itemCode : String
  closingStock : Option Int
deriving Repr, DecidableEq

def lineMatchesPM (normCode : String) (it : IndentLine) : Bool :=
  normalizeField it.itemCode == normCode
  || normalizeField (jsOr it.codeField it.itemField) == normCode

/-- The target search of `_computeStockForIndentItem`: the first indent
document carrying the item's indent number that contains a line matching
the normalized code, together with that line's position. -/
def findTargetIn (normCode itemIndentNo : String) : Nat → List IndentDoc → Option (Nat × Nat)
  | _, [] => none
  | i, d :: ds =>
    if normalizeField d.indentNo == itemIndentNo then
      match d.items.findIdx? (lineMatchesPM normCode) with
      | some j => some (i, j)
      | none => findTargetIn normCode itemIndentNo (i + 1) ds
    else findTargetIn normCode itemIndentNo (i + 1) ds

def sumMatchQty (normCode : String) (lines : List IndentLine) : Int :=
  lines.foldl (fun a it => if lineMatchesPM normCode it then a + it.qty else a) 0

/-- Cumulative quantity walk of `_computeStockForIndentItem`: every
matching line of every indent document up to the target, the target
document cut after the target line. -/
def cumulativeQtyFor (normCode : String) (docs : List IndentDoc) (ti tj : Nat) : Int :=
  (docs.take (ti + 1)).enum.foldl
    (fun acc p =>
      acc + sumMatchQty normCode (if p.1 = ti then p.2.items.take (tj + 1) else p.2.items))
    0

/-- `getIndentQtyFromIndent`: the first present quantity alias (of the
aliases, only `qty` and `qty1` occur on published indent items). -/
def getIndentQtyFromIndent (p : PubItem) : Int :=
  match p.qty with
  | some v => v
  | none => match p.qty1 with
    | some v => v
    | none => 0

/-- JavaScript `a || b` on numbers (zero is falsy). -/
def jsOrInt (a b : Int) : Int :=
  if a = 0 then b else a

/-- `_computeStockForIndentItem` (the unreachable try/catch fallback of
the source is not modelled).  Returns (display, isShort). -/
def computeStockForIndentItem (indentData : List IndentDoc) (stocks : List PMStockRecord)
    (p : PubItem) (normCode itemIndentNo : String) : Int × Bool :=
  match p.availableForThisIndent <|> p.allocatedAvailable <|> p.qty1 <|> p.available with
  | some av => (av, false)
  | none =>
    let cum0 :=
      match findTargetIn normCode itemIndentNo 0 indentData with
      | some t => cumulativeQtyFor normCode indentData t.1 t.2
      | none => 0
    let cum :=
      if cum0 = 0 then
        let fb := jsOrInt (getIndentQtyFromIndent p) (jsOrInt (p.qty.getD 0) (p.qty1.getD 0))
        if 0 < fb then fb else cum0
      else cum0
    let closing :=
      match stocks.find? (fun s => normalizeField s.itemCode == normCode) with
      | some s => s.closingStock.getD 0
      | none => 0
    let display := if 0 < cum then (if closing < cum then cum - closing else cum) else closing
    (display, decide (closing < cum))

/-- `map.has(key) ? skip : map.set(key, v)` on an insertion-ordered
association list. -/
def insertIfAbsent (m : List (String × LiveInfo)) (k : String) (v : LiveInfo) :
    List (String × LiveInfo) :=
  if (m.find? (fun e => e.1 == k)).isSome then m else m ++ [(k, v)]

def lookupAssoc (m : List (String × LiveInfo)) (k : String) : Option LiveInfo :=
  (m.find? (fun e => e.1 == k)).map (fun e => e.2)

/-- Key variants a published indent item contributes to the cache. -/
def keyCodes (p : PubItem) : List String :=
  let codes := [normalizeField p.itemCode, normalizeField p.codeField].filter (fun c => c ≠ "")
  if codes.isEmpty then [""] else codes

/-- Processing of one indent item during the cache rebuild. -/
def processItem (indentData : List IndentDoc) (stocks : List PMStockRecord)
    (m : List (String × LiveInfo)) (p : PubItem) (status : String) :
    List (String × LiveInfo) :=
  if p.indentNo = "" then m
  else
    let ino := normalizeField p.indentNo
    (keyCodes p).foldl
      (fun m code =>
        let r := computeStockForIndentItem indentData stocks p code ino
        insertIfAbsent m (ino ++ "|" ++ code) { display := r.1, isShort := r.2, status := status })
      m

/-- The `liveStockMap` rebuild. -/
def buildLiveStockMap (openItems closedItems : List PubItem) (indentData : List IndentDoc)
    (stocks : List PMStockRecord) : List (String × LiveInfo) :=
  ((openItems.map (fun p => (p, "Open"))) ++ (closedItems.map (fun p => (p, "Closed")))).foldl
    (fun m pc => processItem indentData stocks m pc.1 pc.2) []

/-- A purchase entry as read by the cache accessor (only the fields the
accessor touches; `currentStock` may be absent). -/
structure PurchaseEntry where
  indentNo : String
  itemCode : String
  currentStock : Option Int
deriving Repr, DecidableEq

/-- `getLiveStockInfo`: cache hit on the full key, else on the
indent-number-only fallback key, else the entry's own stored stock
(`entry.currentStock || 0`) with `isShort = false`. -/
def getLiveStockInfo (m : List (String × LiveInfo)) (e : PurchaseEntry) : Int × Bool :=
  match (lookupAssoc m (makeKey e.indentNo e.itemCode)).orElse
      (fun _ => lookupAssoc m (normalizeField e.indentNo ++ "|")) with
  | some h => (h.display, h.isShort)
  | none => (e.currentStock.getD 0, false)

/-! ## Theorems -/

/-- Claim C1: for every item code, indent index and requested quantity,
`getIndentAnalysis` returns `allocatedAvailable = min(max(0, totalStock -
previouslyAllocated), q)`, `availableForThisIndent = (totalStock +
poQuantity) - previouslyAllocated - q` and `isClosed = (totalStock -
previouslyAllocated ≥ q)`; in particular with total stock 0, PO quantity
30, requested quantity 10 and no earlier indents, the allocation is 0,
the indent is open, and `availableForThisIndent` is 20. -/
theorem c1_getIndentAnalysis_formulas :
    (∀ (stocks : List StockRecord) (pos : List PurchaseOrder) (indents : List Indent)
        (code : String) (i : Nat) (q : Int),
      (getIndentAnalysis stocks pos indents code i q).allocatedAvailable
          = min (max 0 (getStock stocks code - getCumulativeAllocatedQtyUpTo stocks indents code i)) q
        ∧ (getIndentAnalysis stocks pos indents code i q).availableForThisIndent
          = (getStock stocks code + getPOQuantity pos code)
            - getCumulativeAllocatedQtyUpTo stocks indents code i - q
        ∧ (getIndentAnalysis stocks pos indents code i q).isClosed
          = decide (getStock stocks code - getCumulativeAllocatedQtyUpTo stocks indents code i ≥ q))
    ∧ getIndentAnalysis [] [⟨[⟨"X001", 30⟩]⟩] [] "X001" 0 10
        = ⟨0, 0, 30, 20, 0, false⟩ := by
  exact ⟨fun _ _ _ _ _ _ => ⟨rfl, rfl, rfl⟩, by decide⟩

/-- Claim C8: when no stock record matches the item code under any of the
matching strategies of `getStock` (exact normalized code, exact/alpha
equality across the candidate fields, substring containment across all
values), the resolver returns 0 and does not fail. -/
theorem c8_getStock_unmatched_zero (stocks : List StockRecord) (code : String)
    (h : ∀ s ∈ stocks, recordMatches code s = false) :
    getStock stocks code = 0 := by
  by_cases hc : code = ""
  · simp [getStock, hc]
  · have hfind : stocks.find? (recordMatches code) = none :=
      List.find?_eq_none.mpr fun x hx => by simp [h x hx]
    simp [getStock, hc, hfind]

/-- Witness for C8: a concrete record set in which nothing matches the
queried code resolves to 0. -/
theorem c8_witness :
    getStock [⟨["BOLT M8"], ["BOLT M8", "12"], some 12, 0, 0, 0, 0⟩] "ZZZ9" = 0 :=
  c8_getStock_unmatched_zero [⟨["BOLT M8"], ["BOLT M8", "12"], some 12, 0, 0, 0, 0⟩]
    "ZZZ9" (by decide)

/-- Claim C9: when both the (indentNo, itemCode) key and the
indentNo-only fallback key are absent from the live stock cache (in
particular when the cache is still empty), `getLiveStockInfo` returns the
entry's own stored stock (0 when absent) with `isShort = false`, and
never an undefined value. -/
theorem c9_getLiveStockInfo_fallback (m : List (String × LiveInfo)) (e : PurchaseEntry)
    (h1 : lookupAssoc m (makeKey e.indentNo e.itemCode) = none)
    (h2 : lookupAssoc m (normalizeField e.indentNo ++ "|") = none) :
    getLiveStockInfo m e = (e.currentStock.getD 0, false) := by
  simp [getLiveStockInfo, h1, h2, Option.orElse]

/-- Witness for C9: reading the empty cache (before the first rebuild)
yields the entry's stored stock. -/
theorem c9_witness :
    getLiveStockInfo [] ⟨"S-8/25-01", "CB-101", some 7⟩ = (7, false) :=
  c9_getLiveStockInfo_fallback [] ⟨"S-8/25-01", "CB-101", some 7⟩ rfl rfl

/-- Claim C6 counterexample: with current year "25", an existing vendor
batch number "24/V1" and the same colliding candidate, the collision loop
breaks (the candidate does not match the current-year pattern) and the
still-colliding identifier is used: it is saved silently, no failure is
surfaced. -/
theorem c6_counterexample :
    resolveVendorBatchNo "25" ["24/V1"] "24/V1" = "24/V1"
    ∧ resolveVendorBatchNo "25" ["24/V1"] "24/V1" ∈ ["24/V1"] := by
  exact ⟨by decide, by decide⟩

/-- Every run of the collision loop ends in one of the three cases of the
amended claim C6. -/
theorem resolveLoop_cases (yy : String) (existing : List String) :
    ∀ (fuel : Nat) (v : String),
      resolveLoop yy existing fuel v ∉ existing
      ∨ parseSeq yy (resolveLoop yy existing fuel v) = none
      ∨ resolveLoop yy existing fuel v = (stepBatch yy)^[fuel] v := by
  intro fuel
  induction fuel with
  | zero => intro v; right; right; rfl
  | succ n ih =>
    intro v
    by_cases hv : v ∈ existing
    · rcases hp : parseSeq yy v with _ | k
      · right; left; simp [resolveLoop, hv, hp]
      · have hstep : stepBatch yy v = mkBatch yy (k + 1) := by simp [stepBatch, hp]
        have hres : resolveLoop yy existing (n + 1) v
            = resolveLoop yy existing n (mkBatch yy (k + 1)) := by
          simp [resolveLoop, hv, hp]
        rcases ih (mkBatch yy (k + 1)) with h | h | h
        · left; rw [hres]; exact h
        · right; left; rw [hres]; exact h
        · right; right
          rw [hres, h, Function.iterate_succ_apply, hstep]
    · left; simp [resolveLoop, hv]

/-- Claim C6 (amended): the generator retries with an incremented
sequence number under the 100-attempt bound, but there is no failure
path: the identifier finally used is either collision-free, or one the
current-year pattern cannot parse (the loop breaks and the colliding
value is used silently), or the result of exhausting all 100 increments
(and is then used even if it still collides). -/
theorem c6_resolve_disjunction (yy start : String) (existing : List String) :
    resolveVendorBatchNo yy existing start ∉ existing
    ∨ parseSeq yy (resolveVendorBatchNo yy existing start) = none
    ∨ resolveVendorBatchNo yy existing start = (stepBatch yy)^[100] start :=
  resolveLoop_cases yy existing 100 start

/-- The scan loop of `generateVendorBatchNo` computes the maximum of the
parsed sequence numbers. -/
theorem foldl_parse_max (yy : String) :
    ∀ (l : List String) (a : Nat),
      l.foldl (fun mx v => match parseSeq yy v with | some n => max mx n | none => mx) a
        = max a ((l.filterMap (parseSeq yy)).foldr max 0) := by
  intro l
  induction l with
  | nil => intro a; simp
  | cons v l ih =>
    intro a
    rcases hp : parseSeq yy v with _ | n
    · simp [List.foldl_cons, List.filterMap_cons, hp, ih]
    · simp only [List.foldl_cons, List.filterMap_cons, hp, ih, List.foldr_cons]
      exact (max_assoc a n _).symm ▸ rfl

theorem foldr_max_append (x y : List Nat) :
    (x ++ y).foldr max 0 = max (x.foldr max 0) (y.foldr max 0) := by
  induction x with
  | nil => simp
  | cons a x ih => simp only [List.cons_append, List.foldr_cons, ih]; omega

/-- Claim C7: the generated vendor batch number is the two-digit year
prefix with the successor of the maximum sequence number parsed (by the
current-year regular expression) from all existing batch numbers, in the
VSIR records and the vendor-department orders together; in particular
existing "25/V1" and "25/V3" in year 25 yield "25/V4" (max+1, not
count+1). -/
theorem c7_generateVendorBatchNo_max :
    (∀ (yy : String) (vsirNos deptNos : List String),
      generateVendorBatchNo yy vsirNos deptNos
        = mkBatch yy ((((vsirNos ++ deptNos).filterMap (parseSeq yy)).foldr max 0) + 1))
    ∧ generateVendorBatchNo "25" ["25/V1", "25/V3"] [] = "25/V4" := by
  constructor
  · intro yy vsirNos deptNos
    simp only [generateVendorBatchNo, foldl_parse_max, List.filterMap_append,
      foldr_max_append, Nat.zero_max]
  · decide

/-- The selection order of `chooseBestStock`: `s` loses to `r` when its
computed stock is smaller, or equal with an id that is not larger. -/
def lexLe (s r : StockCandidate) : Prop :=
  computedStock s < computedStock r
  ∨ (computedStock s = computedStock r ∧ idVal s ≤ idVal r)

theorem lexLe_refl (s : StockCandidate) : lexLe s s :=
  Or.inr ⟨rfl, le_refl _⟩

theorem lexLe_trans {a b c : StockCandidate} (h1 : lexLe a b) (h2 : lexLe b c) :
    lexLe a c := by
  rcases h1 with h1 | ⟨h1, h1'⟩ <;> rcases h2 with h2 | ⟨h2, h2'⟩
  · exact Or.inl (lt_trans h1 h2)
  · exact Or.inl (h2 ▸ h1)
  · exact Or.inl (h1 ▸ h2)
  · exact Or.inr ⟨h1.trans h2, le_trans h1' h2'⟩

/-- The fold of the selection loop returns a member of the candidate list
that dominates every member in the selection order. -/
theorem chooseStep_fold_spec :
    ∀ (cs : List StockCandidate) (b : StockCandidate),
      (cs.foldl chooseStep (b, computedStock b)).1 ∈ b :: cs
      ∧ ∀ s ∈ b :: cs, lexLe s (cs.foldl chooseStep (b, computedStock b)).1 := by
  intro cs
  induction cs with
  | nil =>
    intro b
    refine ⟨List.mem_singleton_self b, ?_⟩
    intro s hs
    rw [List.mem_singleton] at hs
    subst hs
    exact lexLe_refl s
  | cons c cs ih =>
    intro b
    have hstep : ∃ b', chooseStep (b, computedStock b) c = (b', computedStock b')
        ∧ (b' = b ∨ b' = c) ∧ lexLe b b' ∧ lexLe c b' := by
      unfold chooseStep
      by_cases h1 : computedStock c > computedStock b
      · exact ⟨c, by simp [h1], Or.inr rfl, Or.inl h1, lexLe_refl c⟩
      · by_cases h2 : computedStock c = computedStock b
        · by_cases h3 : idVal c > idVal b
          · refine ⟨c, ?_, Or.inr rfl, Or.inr ⟨h2.symm, le_of_lt h3⟩, lexLe_refl c⟩
            simp [h1, h2, h3]
          · refine ⟨b, ?_, Or.inl rfl, lexLe_refl b, Or.inr ⟨h2, le_of_not_lt h3⟩⟩
            simp [h1, h2, h3]
        · refine ⟨b, ?_, Or.inl rfl, lexLe_refl b, Or.inl ?_⟩
          · simp [h1, h2]
          · exact lt_of_le_of_ne (le_of_not_lt h1) h2
    obtain ⟨b', hb', hmem, hbb', hcb'⟩ := hstep
    have hfold : (c :: cs).foldl chooseStep (b, computedStock b)
        = cs.foldl chooseStep (b', computedStock b') := by
      rw [List.foldl_cons, hb']
    obtain ⟨ihmem, ihdom⟩ := ih b'
    rw [hfold]
    constructor
    · rcases List.mem_cons.mp ihmem with h | h
      · rcases hmem with h' | h'
        · rw [h, h']; exact List.mem_cons_self _ _
        · rw [h, h']; exact List.mem_cons_of_mem _ (List.mem_cons_self _ _)
      · exact List.mem_cons_of_mem _ (List.mem_cons_of_mem _ h)
    · intro s hs
      rcases List.mem_cons.mp hs with rfl | hs
      · exact lexLe_trans hbb' (ihdom b' (List.mem_cons_self b' cs))
      · rcases List.mem_cons.mp hs with rfl | hs
        · exact lexLe_trans hcb' (ihdom b' (List.mem_cons_self b' cs))
        · exact ihdom s (List.mem_cons_of_mem b' hs)

/-- Claim C3: on every non-empty candidate list whose ids are pairwise
distinct, `chooseBestStock` returns the record with the highest computed
stock (explicit closing stock when present, else stock quantity plus
incoming quantity), ties broken by the larger id, and the result does not
depend on the order of the input array. -/
theorem c3_chooseBestStock_det (l l' : List StockCandidate) (hne : l ≠ [])
    (hperm : l.Perm l') (hids : (l.map idVal).Nodup) :
    ∃ r, chooseBestStock l = some r ∧ chooseBestStock l' = some r ∧ r ∈ l
      ∧ ∀ s ∈ l, computedStock s < computedStock r
          ∨ (computedStock s = computedStock r ∧ idVal s ≤ idVal r) := by
  obtain ⟨a, as, rfl⟩ : ∃ a as, l = a :: as := by
    cases l with
    | nil => exact absurd rfl hne
    | cons a as => exact ⟨a, as, rfl⟩
  obtain ⟨a', as', hl'⟩ : ∃ a' as', l' = a' :: as' := by
    cases l' with
    | nil => exact absurd hperm.eq_nil (by simp)
    | cons a' as' => exact ⟨a', as', rfl⟩
  subst hl'
  obtain ⟨hmem, hdom⟩ := chooseStep_fold_spec as a
  obtain ⟨hmem', hdom'⟩ := chooseStep_fold_spec as' a'
  set r := (as.foldl chooseStep (a, computedStock a)).1 with hr
  set r' := (as'.foldl chooseStep (a', computedStock a')).1 with hr'
  have hrl' : r' ∈ a :: as := hperm.mem_iff.mpr hmem'
  have hdomr' : ∀ s ∈ a :: as, lexLe s r' := fun s hs => hdom' s (hperm.mem_iff.mp hs)
  have h1 : lexLe r r' := hdomr' r hmem
  have h2 : lexLe r' r := hdom r' hrl'
  have hid : idVal r = idVal r' := by
    rcases h1 with h1 | ⟨h1, h1'⟩ <;> rcases h2 with h2 | ⟨h2, h2'⟩ <;> omega
  have heq : r = r' := List.inj_on_of_nodup_map hids hmem hrl' hid
  refine ⟨r, rfl, ?_, hmem, ?_⟩
  · show some r' = some r
    rw [heq]
  · intro s hs
    exact hdom s hs

/-- Witness for C3: two records for the same item with equal computed
stock 40 and ids 1 and 2 — the id 2 record is returned from either input
order. -/
theorem c3_witness :
    chooseBestStock [⟨some 40, none, none, some 1⟩, ⟨some 40, none, none, some 2⟩]
        = some ⟨some 40, none, none, some 2⟩
    ∧ ∃ r, chooseBestStock
          [⟨some 40, none, none, some 1⟩, ⟨some 40, none, none, some 2⟩] = some r
        ∧ chooseBestStock
          [⟨some 40, none, none, some 2⟩, ⟨some 40, none, none, some 1⟩] = some r
        ∧ r ∈ [⟨some 40, none, none, some 1⟩, ⟨some 40, none, none, some 2⟩]
        ∧ ∀ s ∈ [(⟨some 40, none, none, some 1⟩ : StockCandidate),
            ⟨some 40, none, none, some 2⟩],
            computedStock s < computedStock r
            ∨ (computedStock s = computedStock r ∧ idVal s ≤ idVal r) :=
  ⟨by decide,
    c3_chooseBestStock_det
      [⟨some 40, none, none, some 1⟩, ⟨some 40, none, none, some 2⟩]
      [⟨some 40, none, none, some 2⟩, ⟨some 40, none, none, some 1⟩]
      (by decide) (by decide) (by decide)⟩

theorem foldl_if_add {α : Type} (P : α → Bool) (f : α → Int) :
    ∀ (xs : List α) (t : Int),
      xs.foldl (fun a x => if P x then a + f x else a) t
        = t + (xs.map (fun x => if P x then f x else 0)).sum := by
  intro xs
  induction xs with
  | nil => intro t; simp
  | cons x xs ih =>
    intro t
    by_cases h : P x
    · simp [List.foldl_cons, h, ih]; ring
    · simp [List.foldl_cons, h, ih]

theorem foldl_if_sub {α : Type} (P : α → Bool) (f : α → Int) :
    ∀ (xs : List α) (t : Int),
      xs.foldl (fun a x => if P x then a - f x else a) t
        = t - (xs.map (fun x => if P x then f x else 0)).sum := by
  intro xs
  induction xs with
  | nil => intro t; simp
  | cons x xs ih =>
    intro t
    by_cases h : P x
    · simp [List.foldl_cons, h, ih]; ring
    · simp [List.foldl_cons, h, ih]

theorem foldl_sub_shift {α : Type} (g : α → Int) :
    ∀ (xs : List α) (t : Int),
      xs.foldl (fun a x => a - g x) t = t - (xs.map g).sum := by
  intro xs
  induction xs with
  | nil => intro t; simp
  | cons x xs ih => intro t; simp [List.foldl_cons, ih]; ring

theorem foldl_add_shift {α : Type} (g : α → Int) :
    ∀ (xs : List α) (t : Int),
      xs.foldl (fun a x => a + g x) t = t + (xs.map g).sum := by
  intro xs
  induction xs with
  | nil => intro t; simp
  | cons x xs ih => intro t; simp [List.foldl_cons, ih]; ring

/-- The draft-line phase of `getRemainingStock` subtracts exactly the
total sequential draft consumption. -/
theorem draft_fold (code : String) :
    ∀ (xs : List IndentItem) (pool : Int),
      xs.foldl
          (fun avail it =>
            if it.itemCode == code then avail - min (max 0 avail) it.qty else avail)
          pool
        = pool - draftConsumed code pool xs := by
  intro xs
  induction xs with
  | nil => intro pool; simp [draftConsumed]
  | cons it xs ih =>
    intro pool
    by_cases h : it.itemCode == code
    · simp only [List.foldl_cons, h, if_true, draftConsumed, ih]
      ring
    · simp only [List.foldl_cons, h, if_false, draftConsumed, ih]
      simp [h]

/-- Per-line allocation with the matching condition pushed into the
summand. -/
def allocTerm (stocks : List StockRecord) (indents : List Indent) (code : String)
    (i : Nat) (it : IndentItem) : Int :=
  if it.itemCode == code then getAllocatedAvailableForIndent stocks indents code i it.qty
  else 0

theorem getAllocatedStock_eq_sum (stocks : List StockRecord) (indents : List Indent)
    (code : String) :
    getAllocatedStock stocks indents code
      = (indents.enum.map
          (fun p => (p.2.items.map (allocTerm stocks indents code p.1)).sum)).sum := by
  unfold getAllocatedStock
  have hfun : (fun (tot : Int) (p : Nat × Indent) =>
        p.2.items.foldl (allocLineStep stocks indents code p.1) tot)
      = fun tot p => tot + (p.2.items.map (allocTerm stocks indents code p.1)).sum := by
    funext t p
    exact foldl_if_add (fun it => it.itemCode == code)
      (fun it => getAllocatedAvailableForIndent stocks indents code p.1 it.qty) p.2.items t
  rw [hfun]
  have hshift := foldl_add_shift
    (fun p : Nat × Indent => (p.2.items.map (allocTerm stocks indents code p.1)).sum)
    indents.enum 0
  rw [hshift]
  simp

/-- Claim C5: `getRemainingStock` equals the resolved stock plus the total
purchase-order quantity, minus the allocations of all saved indents under
the sequential rule (`getAllocatedStock`), minus the sequential
consumption of the draft indent lines appended after them. -/
theorem c5_getRemainingStock_decomposition (stocks : List StockRecord)
    (pos : List PurchaseOrder) (indents : List Indent) (draftItems : List IndentItem)
    (code : String) :
    getRemainingStock stocks pos indents draftItems code
      = getStock stocks code + getPOQuantity pos code
        - getAllocatedStock stocks indents code
        - draftConsumed code
            (getStock stocks code + getPOQuantity pos code
              - getAllocatedStock stocks indents code)
            draftItems := by
  unfold getRemainingStock
  rw [draft_fold]
  have hsaved :
      indents.enum.foldl
          (fun avail p =>
            p.2.items.foldl
              (fun avail it =>
                if it.itemCode == code then
                  avail - getAllocatedAvailableForIndent stocks indents code p.1 it.qty
                else avail)
              avail)
          (getStock stocks code + getPOQuantity pos code)
        = getStock stocks code + getPOQuantity pos code
          - getAllocatedStock stocks indents code := by
    have hfun : (fun (avail : Int) (p : Nat × Indent) =>
          p.2.items.foldl
            (fun avail it =>
              if it.itemCode == code then
                avail - getAllocatedAvailableForIndent stocks indents code p.1 it.qty
              else avail)
            avail)
        = fun avail p => avail - (p.2.items.map (allocTerm stocks indents code p.1)).sum := by
      funext a p
      exact foldl_if_sub (fun it => it.itemCode == code)
        (fun it => getAllocatedAvailableForIndent stocks indents code p.1 it.qty) p.2.items a
    rw [hfun]
    have hshift := foldl_sub_shift
      (fun p : Nat × Indent => (p.2.items.map (allocTerm stocks indents code p.1)).sum)
      indents.enum (getStock stocks code + getPOQuantity pos code)
    rw [hshift, getAllocatedStock_eq_sum]
  rw [hsaved]

theorem jsOr_of_ne {a : String} (h : a ≠ "") (b : String) : jsOr a b = a :=
  if_neg h

theorem jsOr_empty_right (a : String) : jsOr a "" = a := by
  unfold jsOr
  by_cases h : a = ""
  · rw [if_pos h, h]
  · rw [if_neg h]

theorem jsOr_eq_empty_iff {a b : String} : jsOr a b = "" ↔ a = "" ∧ b = "" := by
  unfold jsOr
  by_cases h : a = ""
  · simp [h]
  · simp [h]

/-- The value the PSIR source contributes for a PO number (blank when
nothing matches). -/
def psirSrc (psirs : List PsirRec) (poNo : String) : String × String :=
  match psirs.find? (fun p => p.poNo == poNo) with
  | some m => (m.oaNo, m.batchNo)
  | none => ("", "")

def deptSrc (depts : List DeptRec) (poNo : String) : String × String :=
  match depts.find? (fun v => v.materialPurchasePoNo == poNo) with
  | some m => (m.oaNo, m.batchNo)
  | none => ("", "")

def issueSrc (issues : List IssueRec) (poNo : String) : String × String :=
  match issues.find? (fun vi => vi.materialPurchasePoNo == poNo) with
  | some m => (m.oaNo, m.batchNo)
  | none => ("", "")

/-- Componentwise first-non-empty choice between the current pair and a
source pair. -/
def orPair (cur src : String × String) : String × String :=
  (jsOr cur.1 src.1, jsOr cur.2 src.2)

theorem psirStep_eq (psirs : List PsirRec) (poNo : String) (cur : String × String) :
    psirStep psirs poNo cur = orPair cur (psirSrc psirs poNo) := by
  unfold psirStep orPair psirSrc
  by_cases h : cur.1 = "" ∨ cur.2 = ""
  · simp only [if_pos h]
    cases psirs.find? (fun p => p.poNo == poNo) with
    | none => simp [jsOr_empty_right]
    | some m => rfl
  · simp only [if_neg h]
    push_neg at h
    cases hfind : psirs.find? (fun p => p.poNo == poNo) with
    | none => simp [jsOr_empty_right]
    | some m => rw [jsOr_of_ne h.1, jsOr_of_ne h.2]

theorem deptStep_eq (depts : List DeptRec) (poNo : String) (cur : String × String) :
    deptStep depts poNo cur = orPair cur (deptSrc depts poNo) := by
  unfold deptStep orPair deptSrc
  by_cases hd : depts = []
  · subst hd
    simp [jsOr_empty_right, List.find?]
  · by_cases h : cur.1 = "" ∨ cur.2 = ""
    · simp only [if_pos (And.intro h hd)]
      cases depts.find? (fun v => v.materialPurchasePoNo == poNo) with
      | none => simp [jsOr_empty_right]
      | some m => rfl
    · rw [if_neg (fun hc => h hc.1)]
      push_neg at h
      cases hfind : depts.find? (fun v => v.materialPurchasePoNo == poNo) with
      | none => simp [jsOr_empty_right]
      | some m => rw [jsOr_of_ne h.1, jsOr_of_ne h.2]

theorem issueStep_eq (issues : List IssueRec) (poNo : String) (cur : String × String) :
    issueStep issues poNo cur = orPair cur (issueSrc issues poNo) := by
  unfold issueStep orPair issueSrc
  by_cases hd : issues = []
  · subst hd
    simp [jsOr_empty_right, List.find?]
  · by_cases h : cur.1 = "" ∨ cur.2 = ""
    · simp only [if_pos (And.intro h hd)]
      cases issues.find? (fun vi => vi.materialPurchasePoNo == poNo) with
      | none => simp [jsOr_empty_right]
      | some m => rfl
    · rw [if_neg (fun hc => h hc.1)]
      push_neg at h
      cases hfind : issues.find? (fun vi => vi.materialPurchasePoNo == poNo) with
      | none => simp [jsOr_empty_right]
      | some m => rw [jsOr_of_ne h.1, jsOr_of_ne h.2]

/-- The chained string choice the waterfall performs on one field. -/
def jsOr3 (a u v w : String) : String :=
  jsOr (jsOr (jsOr a u) v) w

theorem waterfall_eq_chain (psirs : List PsirRec) (depts : List DeptRec)
    (issues : List IssueRec) (poNo oa b : String) :
    waterfall psirs depts issues poNo oa b
      = (jsOr3 oa (psirSrc psirs poNo).1 (deptSrc depts poNo).1 (issueSrc issues poNo).1,
         jsOr3 b (psirSrc psirs poNo).2 (deptSrc depts poNo).2 (issueSrc issues poNo).2) := by
  unfold waterfall jsOr3
  rw [psirStep_eq, deptStep_eq, issueStep_eq]
  rfl

theorem jsOr3_of_ne {a : String} (h : a ≠ "") (u v w : String) : jsOr3 a u v w = a := by
  unfold jsOr3
  rw [jsOr_of_ne h, jsOr_of_ne h, jsOr_of_ne h]

theorem jsOr3_idem (a u v w : String) : jsOr3 (jsOr3 a u v w) u v w = jsOr3 a u v w := by
  by_cases hc : jsOr3 a u v w = ""
  · have h1 := hc
    unfold jsOr3 at h1
    obtain ⟨h2, hw⟩ := jsOr_eq_empty_iff.mp h1
    obtain ⟨h3, hv⟩ := jsOr_eq_empty_iff.mp h2
    obtain ⟨ha, hu⟩ := jsOr_eq_empty_iff.mp h3
    rw [hc, hu, hv, hw]
    rfl
  · exact jsOr3_of_ne hc u v w

theorem waterfall_stable (psirs : List PsirRec) (depts : List DeptRec)
    (issues : List IssueRec) (poNo oa b : String) :
    waterfall psirs depts issues poNo
        (waterfall psirs depts issues poNo oa b).1
        (waterfall psirs depts issues poNo oa b).2
      = waterfall psirs depts issues poNo oa b := by
  rw [waterfall_eq_chain psirs depts issues poNo oa b]
  rw [waterfall_eq_chain]
  simp only []
  rw [jsOr3_idem, jsOr3_idem]

/-- `fillRecord` with the no-change check collapsed (both branches carry
the same value). -/
theorem fillRecord_eq (psirs : List PsirRec) (depts : List DeptRec)
    (issues : List IssueRec) (r : VSIRRecord) :
    fillRecord psirs depts issues r
      = if (r.oaNo = "" ∨ r.purchaseBatchNo = "") ∧ r.poNo ≠ "" then
          ⟨r.poNo, (waterfall psirs depts issues r.poNo r.oaNo r.purchaseBatchNo).1,
            (waterfall psirs depts issues r.poNo r.oaNo r.purchaseBatchNo).2⟩
        else r := by
  unfold fillRecord
  by_cases hg : (r.oaNo = "" ∨ r.purchaseBatchNo = "") ∧ r.poNo ≠ ""
  · simp only [if_pos hg]
    by_cases hch :
        (waterfall psirs depts issues r.poNo r.oaNo r.purchaseBatchNo).1 ≠ r.oaNo
        ∨ (waterfall psirs depts issues r.poNo r.oaNo r.purchaseBatchNo).2 ≠ r.purchaseBatchNo
    · simp only [if_pos hch]
    · simp only [if_neg hch]
      push_neg at hch
      rw [hch.1, hch.2]
  · simp only [if_neg hg]

theorem fillRecord_idem (psirs : List PsirRec) (depts : List DeptRec)
    (issues : List IssueRec) (r : VSIRRecord) :
    fillRecord psirs depts issues (fillRecord psirs depts issues r)
      = fillRecord psirs depts issues r := by
  rw [fillRecord_eq psirs depts issues r]
  by_cases hg : (r.oaNo = "" ∨ r.purchaseBatchNo = "") ∧ r.poNo ≠ ""
  · simp only [if_pos hg]
    rw [fillRecord_eq]
    by_cases hg2 :
        ((⟨r.poNo, (waterfall psirs depts issues r.poNo r.oaNo r.purchaseBatchNo).1,
          (waterfall psirs depts issues r.poNo r.oaNo r.purchaseBatchNo).2⟩ :
            VSIRRecord).oaNo = ""
          ∨ (⟨r.poNo, (waterfall psirs depts issues r.poNo r.oaNo r.purchaseBatchNo).1,
              (waterfall psirs depts issues r.poNo r.oaNo r.purchaseBatchNo).2⟩ :
                VSIRRecord).purchaseBatchNo = "")
        ∧ (⟨r.poNo, (waterfall psirs depts issues r.poNo r.oaNo r.purchaseBatchNo).1,
            (waterfall psirs depts issues r.poNo r.oaNo r.purchaseBatchNo).2⟩ :
              VSIRRecord).poNo ≠ ""
    · simp only [if_pos hg2]
      have hs := waterfall_stable psirs depts issues r.poNo r.oaNo r.purchaseBatchNo
      exact congrArg (fun p : String × String => (⟨r.poNo, p.1, p.2⟩ : VSIRRecord)) hs
    · simp only [if_neg hg2]
  · simp only [if_neg hg]
    rw [fillRecord_eq, if_neg hg]

theorem syncItem_itemCode (p : Int) (it : DeptItem) :
    (syncItem p it).itemCode = it.itemCode := by
  unfold syncItem
  by_cases h : it.qty = 0 ∧ 0 < p
  · rw [if_pos h]
  · rw [if_neg h]

theorem syncItem_idem (p : Int) (it : DeptItem) :
    syncItem p (syncItem p it) = syncItem p it := by
  unfold syncItem
  by_cases h : it.qty = 0 ∧ 0 < p
  · rw [if_pos h]
    have hne : ¬(({ it with qty := p } : DeptItem).qty = 0 ∧ 0 < p) := by
      intro hc
      have h0 : p = 0 := hc.1
      have hp : 0 < p := h.2
      omega
    rw [if_neg hne]
  · rw [if_neg h, if_neg h]

theorem syncEmptyVendorDeptQty_idem (pq : String → String → Int)
    (orders : List DeptOrder) :
    syncEmptyVendorDeptQty pq (syncEmptyVendorDeptQty pq orders)
      = syncEmptyVendorDeptQty pq orders := by
  unfold syncEmptyVendorDeptQty
  rw [List.map_map]
  apply List.map_congr_left
  intro o _
  show (⟨o.materialPurchasePoNo,
      (o.items.map fun it => syncItem (pq o.materialPurchasePoNo it.itemCode) it).map
        fun it => syncItem (pq o.materialPurchasePoNo it.itemCode) it⟩ : DeptOrder) = _
  rw [List.map_map]
  apply congrArg
  apply List.map_congr_left
  intro it _
  show syncItem
      (pq o.materialPurchasePoNo
        (syncItem (pq o.materialPurchasePoNo it.itemCode) it).itemCode)
      (syncItem (pq o.materialPurchasePoNo it.itemCode) it) = _
  rw [syncItem_itemCode]
  exact syncItem_idem _ it

/-- Claim C4: backfill is idempotent and fills blanks only.  The VSIR
fill-missing pass never overwrites a non-empty OA number or batch number
and running it twice equals running it once; the vendor-department
quantity sync never overwrites a non-zero quantity and running it twice
equals running it once. -/
theorem c4_backfill_idempotent (psirs : List PsirRec) (depts : List DeptRec)
    (issues : List IssueRec) (rs : List VSIRRecord) (pq : String → String → Int)
    (orders : List DeptOrder) :
    fillMissing psirs depts issues (fillMissing psirs depts issues rs)
        = fillMissing psirs depts issues rs
    ∧ (∀ r : VSIRRecord,
        (r.oaNo ≠ "" → (fillRecord psirs depts issues r).oaNo = r.oaNo)
        ∧ (r.purchaseBatchNo ≠ "" →
            (fillRecord psirs depts issues r).purchaseBatchNo = r.purchaseBatchNo))
    ∧ syncEmptyVendorDeptQty pq (syncEmptyVendorDeptQty pq orders)
        = syncEmptyVendorDeptQty pq orders
    ∧ (∀ (p : Int) (it : DeptItem), it.qty ≠ 0 → syncItem p it = it) := by
  refine ⟨?_, ?_, syncEmptyVendorDeptQty_idem pq orders, ?_⟩
  · unfold fillMissing
    rw [List.map_map]
    have hcomp : fillRecord psirs depts issues ∘ fillRecord psirs depts issues
        = fillRecord psirs depts issues :=
      funext (fillRecord_idem psirs depts issues)
    rw [hcomp]
  · intro r
    constructor
    · intro hne
      rw [fillRecord_eq]
      by_cases hg : (r.oaNo = "" ∨ r.purchaseBatchNo = "") ∧ r.poNo ≠ ""
      · simp only [if_pos hg]
        rw [waterfall_eq_chain]
        exact jsOr3_of_ne hne _ _ _
      · simp only [if_neg hg]
    · intro hne
      rw [fillRecord_eq]
      by_cases hg : (r.oaNo = "" ∨ r.purchaseBatchNo = "") ∧ r.poNo ≠ ""
      · simp only [if_pos hg]
        rw [waterfall_eq_chain]
        exact jsOr3_of_ne hne _ _ _
      · simp only [if_neg hg]
  · intro p it hne
    unfold syncItem
    rw [if_neg (fun hc => hne hc.1)]

/-- Witness for C4: a record whose fields are already filled passes
through the backfill unchanged, and a non-zero quantity survives the
quantity sync. -/
theorem c4_witness :
    (fillRecord [] [] [] ⟨"PO1", "OA-1", "B-1"⟩).oaNo = "OA-1"
    ∧ syncItem 7 ⟨"CB-101", 5⟩ = ⟨"CB-101", 5⟩ :=
  ⟨((c4_backfill_idempotent [] [] [] [] (fun _ _ => 0) []).2.1
      ⟨"PO1", "OA-1", "B-1"⟩).1 (by decide),
    (c4_backfill_idempotent [] [] [] [] (fun _ _ => 0) []).2.2.2 7 ⟨"CB-101", 5⟩ (by decide)⟩

/-! Lemmas for claim C2: the cumulative allocation walk never exceeds a
non-negative pool, and is monotone when requested quantities are
non-negative. -/

theorem lineStep_le_pool {S : Int} (code : String) {tot : Int} (h : tot ≤ S)
    (it : IndentItem) : lineStep S code tot it ≤ S := by
  unfold lineStep
  by_cases hm : it.itemCode == code
  · rw [if_pos hm]; omega
  · rw [if_neg hm]; exact h

theorem foldl_lineStep_le_pool {S : Int} (code : String) :
    ∀ (items : List IndentItem) {tot : Int}, tot ≤ S →
      items.foldl (lineStep S code) tot ≤ S := by
  intro items
  induction items with
  | nil => intro tot h; exact h
  | cons it items ih => intro tot h; exact ih (lineStep_le_pool code h it)

theorem foldl_indentStep_le_pool {S : Int} (code : String) :
    ∀ (l : List Indent) {tot : Int}, tot ≤ S → l.foldl (indentStep S code) tot ≤ S := by
  intro l
  induction l with
  | nil => intro tot h; exact h
  | cons ind l ih => intro tot h; exact ih (foldl_lineStep_le_pool code ind.items h)

theorem cumUpTo_le_pool {S : Int} (code : String) (indents : List Indent) (i : Nat)
    (hS : 0 ≤ S) : cumUpTo S code indents i ≤ S :=
  foldl_indentStep_le_pool code _ hS

theorem lineStep_ge {S : Int} (code : String) (tot : Int) (it : IndentItem)
    (hq : it.itemCode = code → 0 ≤ it.qty) : tot ≤ lineStep S code tot it := by
  unfold lineStep
  by_cases hm : it.itemCode == code
  · rw [if_pos hm]
    have := hq (beq_iff_eq.mp hm)
    omega
  · rw [if_neg hm]

theorem foldl_lineStep_ge {S : Int} (code : String) :
    ∀ (items : List IndentItem) (tot : Int),
      (∀ it ∈ items, it.itemCode = code → 0 ≤ it.qty) →
      tot ≤ items.foldl (lineStep S code) tot := by
  intro items
  induction items with
  | nil => intro tot _; exact le_refl tot
  | cons it items ih =>
    intro tot hq
    exact le_trans (lineStep_ge code tot it (hq it (List.mem_cons_self _ _)))
      (ih _ fun x hx => hq x (List.mem_cons_of_mem _ hx))

theorem foldl_indentStep_ge {S : Int} (code : String) :
    ∀ (l : List Indent) (tot : Int),
      (∀ ind ∈ l, ∀ it ∈ ind.items, it.itemCode = code → 0 ≤ it.qty) →
      tot ≤ l.foldl (indentStep S code) tot := by
  intro l
  induction l with
  | nil => intro tot _; exact le_refl tot
  | cons ind l ih =>
    intro tot hq
    exact le_trans
      (foldl_lineStep_ge code ind.items tot (hq ind (List.mem_cons_self _ _)))
      (ih _ fun x hx => hq x (List.mem_cons_of_mem _ hx))

theorem cumUpTo_mono {S : Int} (code : String) (indents : List Indent)
    (hq : ∀ ind ∈ indents, ∀ it ∈ ind.items, it.itemCode = code → 0 ≤ it.qty)
    {i k : Nat} (hik : i ≤ k) :
    cumUpTo S code indents i ≤ cumUpTo S code indents k := by
  unfold cumUpTo
  have hk : k = i + (k - i) := (Nat.add_sub_cancel' hik).symm
  rw [hk, List.take_add, List.foldl_append]
  apply foldl_indentStep_ge
  intro ind hind
  exact hq ind (List.drop_subset i indents (List.take_subset _ _ hind))

theorem foldl_allocLineStep_nomatch (stocks : List StockRecord) (full : List Indent)
    (code : String) (i : Nat) :
    ∀ (items : List IndentItem) (t : Int),
      (∀ it ∈ items, (it.itemCode == code) = false) →
      items.foldl (allocLineStep stocks full code i) t = t := by
  intro items
  induction items with
  | nil => intro t _; rfl
  | cons it items ih =>
    intro t h
    rw [List.foldl_cons]
    rw [show allocLineStep stocks full code i t it = t from by
      unfold allocLineStep; rw [if_neg (by simp [h it (List.mem_cons_self _ _)])]]
    exact ih t fun x hx => h x (List.mem_cons_of_mem _ hx)

theorem foldl_lineStep_nomatch {S : Int} (code : String) :
    ∀ (items : List IndentItem) (t : Int),
      (∀ it ∈ items, (it.itemCode == code) = false) →
      items.foldl (lineStep S code) t = t := by
  intro items
  induction items with
  | nil => intro t _; rfl
  | cons it items ih =>
    intro t h
    rw [List.foldl_cons]
    rw [show lineStep S code t it = t from by
      unfold lineStep; rw [if_neg (by simp [h it (List.mem_cons_self _ _)])]]
    exact ih t fun x hx => h x (List.mem_cons_of_mem _ hx)

/-- With at most one matching line in the indent, summing the per-line
`getAllocatedAvailableForIndent` from the cumulative total up to the
indent coincides with the cumulative walk over the indent itself. -/
theorem alloc_indent_step (stocks : List StockRecord) (full : List Indent)
    (code : String) (i0 : Nat) :
    ∀ (items : List IndentItem),
      (items.filter (fun it => it.itemCode == code)).length ≤ 1 →
      items.foldl (allocLineStep stocks full code i0)
          (getCumulativeAllocatedQtyUpTo stocks full code i0)
        = items.foldl (lineStep (getStock stocks code) code)
            (getCumulativeAllocatedQtyUpTo stocks full code i0) := by
  intro items
  induction items with
  | nil => intro _; rfl
  | cons it items ih =>
    intro h1
    by_cases hm : it.itemCode == code
    · have hfil : (it :: items).filter (fun it => it.itemCode == code)
          = it :: items.filter (fun it => it.itemCode == code) :=
        List.filter_cons_of_pos hm
      rw [hfil] at h1
      have hrest : items.filter (fun it => it.itemCode == code) = [] := by
        rw [List.length_cons] at h1
        exact List.length_eq_zero.mp (by omega)
      have hnom : ∀ x ∈ items, (x.itemCode == code) = false := by
        intro x hx
        have := List.filter_eq_nil_iff.mp hrest x hx
        exact Bool.eq_false_iff.mpr this
      rw [List.foldl_cons, List.foldl_cons]
      rw [show allocLineStep stocks full code i0
            (getCumulativeAllocatedQtyUpTo stocks full code i0) it
          = lineStep (getStock stocks code) code
            (getCumulativeAllocatedQtyUpTo stocks full code i0) it from by
        unfold allocLineStep lineStep getAllocatedAvailableForIndent
        rw [if_pos hm]]
      rw [foldl_allocLineStep_nomatch stocks full code i0 items _ hnom,
        foldl_lineStep_nomatch code items _ hnom]
    · have hfil : (it :: items).filter (fun it => it.itemCode == code)
          = items.filter (fun it => it.itemCode == code) :=
        List.filter_cons_of_neg (by simp [hm])
      rw [hfil] at h1
      rw [List.foldl_cons, List.foldl_cons]
      rw [show allocLineStep stocks full code i0
            (getCumulativeAllocatedQtyUpTo stocks full code i0) it
          = getCumulativeAllocatedQtyUpTo stocks full code i0 from by
        unfold allocLineStep; rw [if_neg hm]]
      rw [show lineStep (getStock stocks code) code
            (getCumulativeAllocatedQtyUpTo stocks full code i0) it
          = getCumulativeAllocatedQtyUpTo stocks full code i0 from by
        unfold lineStep; rw [if_neg hm]]
      exact ih h1

/-- The indexed walk of `getAllocatedStock` over a suffix, starting from
the cumulative total of the processed prefix, lands on the full
cumulative total. -/
theorem allocStock_go (stocks : List StockRecord) (code : String) (full : List Indent) :
    ∀ (rest pre : List Indent), full = pre ++ rest →
      (∀ ind ∈ rest, (ind.items.filter (fun it => it.itemCode == code)).length ≤ 1) →
      (List.enumFrom pre.length rest).foldl
          (fun tot p => p.2.items.foldl (allocLineStep stocks full code p.1) tot)
          (getCumulativeAllocatedQtyUpTo stocks full code pre.length)
        = getCumulativeAllocatedQtyUpTo stocks full code full.length := by
  intro rest
  induction rest with
  | nil =>
    intro pre hfull _
    simp only [List.enumFrom, List.foldl_nil]
    rw [hfull]
    simp
  | cons ind rest ih =>
    intro pre hfull hone
    rw [show List.enumFrom pre.length (ind :: rest)
        = (pre.length, ind) :: List.enumFrom (pre.length + 1) rest from rfl]
    rw [List.foldl_cons]
    have hone_head := hone ind (List.mem_cons_self _ _)
    have hstep := alloc_indent_step stocks full code pre.length ind.items hone_head
    rw [hstep]
    have hcum : getCumulativeAllocatedQtyUpTo stocks full code (pre.length + 1)
        = ind.items.foldl (lineStep (getStock stocks code) code)
            (getCumulativeAllocatedQtyUpTo stocks full code pre.length) := by
      unfold getCumulativeAllocatedQtyUpTo cumUpTo
      rw [hfull, List.take_append 1, List.take_left]
      rw [show List.take 1 (ind :: rest) = [ind] from rfl]
      rw [List.foldl_append]
      rfl
    rw [← hcum]
    have hfull' : full = (pre ++ [ind]) ++ rest := by
      rw [hfull, List.append_assoc]
      rfl
    have hone' : ∀ i ∈ rest, (i.items.filter (fun it => it.itemCode == code)).length ≤ 1 :=
      fun i hi => hone i (List.mem_cons_of_mem _ hi)
    have hlen : (pre ++ [ind]).length = pre.length + 1 := by simp
    have hrec := ih (pre ++ [ind]) hfull' hone'
    rw [hlen] at hrec
    exact hrec

/-- With at most one line per item in every indent, `getAllocatedStock`
is the full cumulative allocation. -/
theorem getAllocatedStock_eq_cum (stocks : List StockRecord) (indents : List Indent)
    (code : String)
    (hone : ∀ ind ∈ indents, (ind.items.filter (fun it => it.itemCode == code)).length ≤ 1) :
    getAllocatedStock stocks indents code
      = getCumulativeAllocatedQtyUpTo stocks indents code indents.length := by
  have h := allocStock_go stocks code indents indents [] rfl hone
  exact h

/-- Claim C2 counterexample: with total stock 10 and a single indent that
carries two lines of quantity 10 for the same item, the per-line
allocations sum to 20, exceeding the total stock — the claim fails as
stated when one indent repeats an item. -/
theorem c2_counterexample :
    getAllocatedStock [⟨["A"], ["A"], some 10, 0, 0, 0, 0⟩]
        [⟨"S1", "", "", "", [⟨"m", "A", 10, false⟩, ⟨"m", "A", 10, false⟩]⟩] "A" = 20
    ∧ getStock [⟨["A"], ["A"], some 10, 0, 0, 0, 0⟩] "A" = 10
    ∧ ¬(getAllocatedStock [⟨["A"], ["A"], some 10, 0, 0, 0, 0⟩]
        [⟨"S1", "", "", "", [⟨"m", "A", 10, false⟩, ⟨"m", "A", 10, false⟩]⟩] "A"
          ≤ getStock [⟨["A"], ["A"], some 10, 0, 0, 0, 0⟩] "A") := by
  refine ⟨by decide, by decide, by decide⟩

/-- Claim C2 (amended): under the conditions the specification itself
imposes on the data — every indent line carries a positive quantity,
no indent repeats an item, and the resolved total stock is non-negative —
the allocation for indent i never exceeds `max(0, totalStock -
previouslyAllocated)`, the per-line allocations summed over all indents
never exceed the total stock, and once the pool is exhausted every later
request for the item is allocated 0 and left open. -/
theorem c2_allocation_invariants (stocks : List StockRecord) (pos : List PurchaseOrder)
    (indents : List Indent) (code : String)
    (hq : ∀ ind ∈ indents, ∀ it ∈ ind.items, it.itemCode = code → 0 < it.qty)
    (hone : ∀ ind ∈ indents, (ind.items.filter (fun it => it.itemCode == code)).length ≤ 1)
    (hS : 0 ≤ getStock stocks code) :
    (∀ (i : Nat) (q : Int),
        getAllocatedAvailableForIndent stocks indents code i q
          ≤ max 0 (getStock stocks code - getCumulativeAllocatedQtyUpTo stocks indents code i))
    ∧ getAllocatedStock stocks indents code ≤ getStock stocks code
    ∧ (∀ i : Nat,
        getStock stocks code - getCumulativeAllocatedQtyUpTo stocks indents code i ≤ 0 →
        ∀ (k : Nat) (q : Int), i ≤ k → 0 < q →
          getAllocatedAvailableForIndent stocks indents code k q = 0
          ∧ (getIndentAnalysis stocks pos indents code k q).isClosed = false) := by
  have hq' : ∀ ind ∈ indents, ∀ it ∈ ind.items, it.itemCode = code → 0 ≤ it.qty :=
    fun ind hind it hit hc => le_of_lt (hq ind hind it hit hc)
  refine ⟨?_, ?_, ?_⟩
  · intro i q
    exact min_le_left _ _
  · rw [getAllocatedStock_eq_cum stocks indents code hone]
    exact cumUpTo_le_pool code indents indents.length hS
  · intro i hpool k q hik hq0
    have hmono : getCumulativeAllocatedQtyUpTo stocks indents code i
        ≤ getCumulativeAllocatedQtyUpTo stocks indents code k :=
      cumUpTo_mono code indents hq' hik
    constructor
    · show min (max 0 (getStock stocks code
          - getCumulativeAllocatedQtyUpTo stocks indents code k)) q = 0
      omega
    · show decide (getStock stocks code
          - getCumulativeAllocatedQtyUpTo stocks indents code k ≥ q) = false
      exact decide_eq_false (by omega)

/-- Witness for C2 (amended): stock 100, indent A requests 50, indent B
requests 60 — the summed allocations stay within the pool. -/
theorem c2_witness :
    getAllocatedStock [⟨["A"], ["A"], some 100, 0, 0, 0, 0⟩]
        [⟨"S1", "", "", "", [⟨"m", "A", 50, false⟩]⟩,
          ⟨"S2", "", "", "", [⟨"m", "A", 60, false⟩]⟩] "A"
      ≤ getStock [⟨["A"], ["A"], some 100, 0, 0, 0, 0⟩] "A" :=
  (c2_allocation_invariants [⟨["A"], ["A"], some 100, 0, 0, 0, 0⟩] []
    [⟨"S1", "", "", "", [⟨"m", "A", 50, false⟩]⟩,
      ⟨"S2", "", "", "", [⟨"m", "A", 60, false⟩]⟩] "A"
    (by decide) (by decide) (by decide)).2.1

/-! Lemmas for claim C10: the cache rebuild only ever inserts at absent
keys, so an entry, once present, survives every later step. -/

theorem find?_append_some {α : Type} (p : α → Bool) (l₂ : List α) :
    ∀ (l : List α) (e : α), l.find? p = some e → (l ++ l₂).find? p = some e := by
  intro l
  induction l with
  | nil => intro e h; exact absurd h (by simp)
  | cons a l ih =>
    intro e h
    rw [List.cons_append]
    by_cases hp : p a
    · rw [List.find?_cons_of_pos _ hp] at h ⊢
      exact h
    · rw [List.find?_cons_of_neg _ hp] at h ⊢
      exact ih e h

theorem find?_append_none {α : Type} (p : α → Bool) (l₂ : List α) :
    ∀ (l : List α), l.find? p = none → (l ++ l₂).find? p = l₂.find? p := by
  intro l
  induction l with
  | nil => intro _; rfl
  | cons a l ih =>
    intro h
    rw [List.cons_append]
    by_cases hp : p a
    · rw [List.find?_cons_of_pos _ hp] at h
      exact absurd h (by simp)
    · rw [List.find?_cons_of_neg _ hp] at h ⊢
      exact ih h

theorem lookupAssoc_insert_some (m : List (String × LiveInfo)) (k2 : String)
    (v2 : LiveInfo) (k : String) (v : LiveInfo) (h : lookupAssoc m k = some v) :
    lookupAssoc (insertIfAbsent m k2 v2) k = some v := by
  unfold insertIfAbsent
  by_cases hc : (m.find? (fun e => e.1 == k2)).isSome
  · rw [if_pos hc]; exact h
  · rw [if_neg hc]
    unfold lookupAssoc at h ⊢
    cases hf : m.find? (fun e => e.1 == k) with
    | none => rw [hf] at h; exact absurd h (by simp)
    | some e =>
      rw [find?_append_some _ _ m e hf]
      rw [hf] at h
      exact h

theorem lookupAssoc_insert_none (m : List (String × LiveInfo)) (k2 : String)
    (v2 : LiveInfo) (k : String) (h : lookupAssoc m k = none) :
    lookupAssoc (insertIfAbsent m k2 v2) k = if k2 = k then some v2 else none := by
  have hfk : m.find? (fun e => e.1 == k) = none := by
    unfold lookupAssoc at h
    cases hf : m.find? (fun e => e.1 == k) with
    | none => rfl
    | some e => rw [hf] at h; exact absurd h (by simp)
  unfold insertIfAbsent
  by_cases hc : (m.find? (fun e => e.1 == k2)).isSome
  · rw [if_pos hc]
    have hne : k2 ≠ k := by
      intro he
      rw [he, hfk] at hc
      exact absurd hc (by simp)
    rw [if_neg hne]
    exact h
  · rw [if_neg hc]
    unfold lookupAssoc
    rw [find?_append_none _ _ m hfk]
    by_cases he : k2 = k
    · subst he
      rw [if_pos rfl]
      rw [List.find?_cons_of_pos _ (by simp)]
      rfl
    · rw [if_neg he]
      rw [List.find?_cons_of_neg _ (by simp [he])]
      rfl

theorem foldl_insert_preserve (g : String → String) (val : String → LiveInfo) :
    ∀ (cs : List String) (m : List (String × LiveInfo)) (k : String) (v : LiveInfo),
      lookupAssoc m k = some v →
      lookupAssoc (cs.foldl (fun m c => insertIfAbsent m (g c) (val c)) m) k = some v := by
  intro cs
  induction cs with
  | nil => intro m k v h; exact h
  | cons c cs ih =>
    intro m k v h
    rw [List.foldl_cons]
    exact ih _ k v (lookupAssoc_insert_some m (g c) (val c) k v h)

theorem foldl_insert_inv (g : String → String) (val : String → LiveInfo) (st : String)
    (hval : ∀ c, (val c).status = st) :
    ∀ (cs : List String) (m : List (String × LiveInfo)) (k : String),
      (lookupAssoc m k = none ∨ ∃ w, lookupAssoc m k = some w ∧ w.status = st) →
      (lookupAssoc (cs.foldl (fun m c => insertIfAbsent m (g c) (val c)) m) k = none
        ∨ ∃ w, lookupAssoc (cs.foldl (fun m c => insertIfAbsent m (g c) (val c)) m) k
              = some w ∧ w.status = st) := by
  intro cs
  induction cs with
  | nil => intro m k h; exact h
  | cons c cs ih =>
    intro m k h
    rw [List.foldl_cons]
    apply ih
    rcases h with h | ⟨w, hw, hst⟩
    · rw [lookupAssoc_insert_none m (g c) (val c) k h]
      by_cases he : g c = k
      · rw [if_pos he]
        exact Or.inr ⟨val c, rfl, hval c⟩
      · rw [if_neg he]
        exact Or.inl rfl
    · exact Or.inr ⟨w, lookupAssoc_insert_some m (g c) (val c) k w hw, hst⟩

theorem foldl_insert_hit (g : String → String) (val : String → LiveInfo) (st : String)
    (hval : ∀ c, (val c).status = st) :
    ∀ (cs : List String) (m : List (String × LiveInfo)) (k : String),
      (lookupAssoc m k = none ∨ ∃ w, lookupAssoc m k = some w ∧ w.status = st) →
      k ∈ cs.map g →
      ∃ w, lookupAssoc (cs.foldl (fun m c => insertIfAbsent m (g c) (val c)) m) k = some w
        ∧ w.status = st := by
  intro cs
  induction cs with
  | nil => intro m k _ hk; exact absurd hk (List.not_mem_nil k)
  | cons c cs ih =>
    intro m k hinv hk
    rw [List.foldl_cons]
    rw [List.map_cons] at hk
    rcases List.mem_cons.mp hk with he | hk
    · have hgood : ∃ w, lookupAssoc (insertIfAbsent m (g c) (val c)) k = some w
          ∧ w.status = st := by
        rcases hinv with h | ⟨w, hw, hst⟩
        · rw [lookupAssoc_insert_none m (g c) (val c) k h, if_pos he.symm]
          exact ⟨val c, rfl, hval c⟩
        · exact ⟨w, lookupAssoc_insert_some m (g c) (val c) k w hw, hst⟩
      obtain ⟨w, hw, hst⟩ := hgood
      exact ⟨w, foldl_insert_preserve g val cs _ k w hw, hst⟩
    · have hinv' := foldl_insert_inv g val st hval [c] m k hinv
      rw [show ([c].foldl (fun m c => insertIfAbsent m (g c) (val c)) m)
          = insertIfAbsent m (g c) (val c) from rfl] at hinv'
      exact ih _ k hinv' hk

theorem processItem_preserve (d : List IndentDoc) (s : List PMStockRecord)
    (p : PubItem) (st : String) (m : List (String × LiveInfo)) (k : String)
    (v : LiveInfo) (h : lookupAssoc m k = some v) :
    lookupAssoc (processItem d s m p st) k = some v := by
  unfold processItem
  by_cases hp : p.indentNo = ""
  · rw [if_pos hp]; exact h
  · rw [if_neg hp]
    exact foldl_insert_preserve
      (fun c => normalizeField p.indentNo ++ "|" ++ c)
      (fun c =>
        { display := (computeStockForIndentItem d s p c (normalizeField p.indentNo)).1,
          isShort := (computeStockForIndentItem d s p c (normalizeField p.indentNo)).2,
          status := st })
      (keyCodes p) m k v h

theorem processItem_inv (d : List IndentDoc) (s : List PMStockRecord)
    (p : PubItem) (st : String) (m : List (String × LiveInfo)) (k : String)
    (hinv : lookupAssoc m k = none ∨ ∃ w, lookupAssoc m k = some w ∧ w.status = st) :
    lookupAssoc (processItem d s m p st) k = none
      ∨ ∃ w, lookupAssoc (processItem d s m p st) k = some w ∧ w.status = st := by
  unfold processItem
  by_cases hp : p.indentNo = ""
  · rw [if_pos hp]; exact hinv
  · rw [if_neg hp]
    exact foldl_insert_inv
      (fun c => normalizeField p.indentNo ++ "|" ++ c)
      (fun c =>
        { display := (computeStockForIndentItem d s p c (normalizeField p.indentNo)).1,
          isShort := (computeStockForIndentItem d s p c (normalizeField p.indentNo)).2,
          status := st })
      st (fun _ => rfl) (keyCodes p) m k hinv

theorem processItem_hit (d : List IndentDoc) (s : List PMStockRecord)
    (p : PubItem) (st : String) (m : List (String × LiveInfo)) (k : String)
    (hne : p.indentNo ≠ "")
    (hinv : lookupAssoc m k = none ∨ ∃ w, lookupAssoc m k = some w ∧ w.status = st)
    (hk : k ∈ (keyCodes p).map (fun c => normalizeField p.indentNo ++ "|" ++ c)) :
    ∃ w, lookupAssoc (processItem d s m p st) k = some w ∧ w.status = st := by
  unfold processItem
  rw [if_neg hne]
  exact foldl_insert_hit
    (fun c => normalizeField p.indentNo ++ "|" ++ c)
    (fun c =>
      { display := (computeStockForIndentItem d s p c (normalizeField p.indentNo)).1,
        isShort := (computeStockForIndentItem d s p c (normalizeField p.indentNo)).2,
        status := st })
    st (fun _ => rfl) (keyCodes p) m k hinv hk

theorem foldl_process_preserve (d : List IndentDoc) (s : List PMStockRecord) :
    ∀ (ps : List (PubItem × String)) (m : List (String × LiveInfo)) (k : String)
      (v : LiveInfo), lookupAssoc m k = some v →
      lookupAssoc (ps.foldl (fun m pc => processItem d s m pc.1 pc.2) m) k = some v := by
  intro ps
  induction ps with
  | nil => intro m k v h; exact h
  | cons pc ps ih =>
    intro m k v h
    rw [List.foldl_cons]
    exact ih _ k v (processItem_preserve d s pc.1 pc.2 m k v h)

theorem foldl_processItems_preserve (d : List IndentDoc) (s : List PMStockRecord)
    (st : String) :
    ∀ (items : List PubItem) (m : List (String × LiveInfo)) (k : String) (v : LiveInfo),
      lookupAssoc m k = some v →
      lookupAssoc (items.foldl (fun m p => processItem d s m p st) m) k = some v := by
  intro items
  induction items with
  | nil => intro m k v h; exact h
  | cons p items ih =>
    intro m k v h
    rw [List.foldl_cons]
    exact ih _ k v (processItem_preserve d s p st m k v h)

/-- Walking the open items: any key one of them generates ends up cached
with status "Open". -/
theorem openPhase (d : List IndentDoc) (s : List PMStockRecord) :
    ∀ (items : List PubItem) (m : List (String × LiveInfo)) (k : String),
      (lookupAssoc m k = none ∨ ∃ w, lookupAssoc m k = some w ∧ w.status = "Open") →
      ((∃ p ∈ items, p.indentNo ≠ ""
          ∧ k ∈ (keyCodes p).map (fun c => normalizeField p.indentNo ++ "|" ++ c))
        ∨ (∃ w, lookupAssoc m k = some w ∧ w.status = "Open")) →
      ∃ w, lookupAssoc (items.foldl (fun m p => processItem d s m p "Open") m) k = some w
        ∧ w.status = "Open" := by
  intro items
  induction items with
  | nil =>
    intro m k _ hk
    rcases hk with ⟨p, hp, _⟩ | h
    · exact absurd hp (List.not_mem_nil p)
    · exact h
  | cons p items ih =>
    intro m k hinv hk
    rw [List.foldl_cons]
    have hinv' := processItem_inv d s p "Open" m k hinv
    rcases hk with ⟨p', hp', hpne, hpk⟩ | hgood
    · rcases List.mem_cons.mp hp' with rfl | hmem
      · obtain ⟨w, hw, hst⟩ := processItem_hit d s p' "Open" m k hpne hinv hpk
        exact ih _ k hinv' (Or.inr ⟨w, hw, hst⟩)
      · exact ih _ k hinv' (Or.inl ⟨p', hmem, hpne, hpk⟩)
    · obtain ⟨w, hw, hst⟩ := hgood
      exact ih _ k hinv'
        (Or.inr ⟨w, processItem_preserve d s p "Open" m k w hw, hst⟩)

/-- Claim C10: during a cache rebuild a key already present is never
overwritten (first insertion wins), and because the open indent items are
walked before the closed ones, any key generated by an open item — in
particular one arising from both an open and a closed item — is cached
with status "Open". -/
theorem c10_first_insertion_wins (indentData : List IndentDoc)
    (stocks : List PMStockRecord) (openItems closedItems : List PubItem)
    (p : PubItem) (k : String) (hp : p ∈ openItems) (hne : p.indentNo ≠ "")
    (hk : k ∈ (keyCodes p).map (fun c => normalizeField p.indentNo ++ "|" ++ c)) :
    (∀ (m : List (String × LiveInfo)) (ps : List (PubItem × String)) (k' : String)
        (v : LiveInfo), lookupAssoc m k' = some v →
        lookupAssoc (ps.foldl (fun m pc => processItem indentData stocks m pc.1 pc.2) m) k'
          = some v)
    ∧ ∃ w, lookupAssoc (buildLiveStockMap openItems closedItems indentData stocks) k
          = some w ∧ w.status = "Open" := by
  constructor
  · intro m ps k' v h
    exact foldl_process_preserve indentData stocks ps m k' v h
  · unfold buildLiveStockMap
    rw [List.foldl_append, List.foldl_map, List.foldl_map]
    have hopen := openPhase indentData stocks openItems [] k (Or.inl rfl)
      (Or.inl ⟨p, hp, hne, hk⟩)
    obtain ⟨w, hw, hst⟩ := hopen
    exact ⟨w, foldl_processItems_preserve indentData stocks "Closed" closedItems _ k w hw, hst⟩

/-- Witness for C10: the same (indentNo, itemCode) key published both as
an open and as a closed indent item is cached with status "Open". -/
theorem c10_witness :
    ∃ w, lookupAssoc
        (buildLiveStockMap
          [⟨"S-8/25-01", "CB-101", "", none, none, none, none, some 50⟩]
          [⟨"S-8/25-01", "CB-101", "", none, none, none, none, some 140⟩] [] [])
        "S-8/25-01|CB-101" = some w ∧ w.status = "Open" :=
  (c10_first_insertion_wins [] []
    [⟨"S-8/25-01", "CB-101", "", none, none, none, none, some 50⟩]
    [⟨"S-8/25-01", "CB-101", "", none, none, none, none, some 140⟩]
    ⟨"S-8/25-01", "CB-101", "", none, none, none, none, some 50⟩
    "S-8/25-01|CB-101" (by decide) (by decide) (by decide)).2

end AIR03
